import Mathlib

/-!
# Formal model of the pyvi separation / identification layers

A shallow embedding, in exact arithmetic, of the order-separation classes
(`pyVI/separation/separation.py`), the kernel-identification entry points
(`pyvi/identification/methods.py`) and the dB utility
(`utilities/order_separation.py`).

Conventions used throughout:

* numpy arrays of scalars are `List F` or index functions `ℕ → S` over an
  abstract field of scalars `F` (exact arithmetic stands in for IEEE floats);
* a complex scalar is modelled as a pair `F × F` of (real part, imaginary
  part) where only real/imaginary projections are needed;
* python functions that can raise return `Except String α`;
* python dicts keyed by `(n, q)` are modelled as functions
  `(ℕ × ℕ) → Option S` updated with overwrite semantics, mirroring dict
  insertion.
-/

namespace Pyvi

/-! ### Math utilities (`pyvi.utilities.mathbox`) -/

/-- Binomial coefficient, as used by `separation.py` and `methods.py`
(`from ..utilities.mathbox import binomial`, a wrapper around
`scipy.special.binom` on integer arguments). -/
def binomial (n k : ℕ) : ℕ := Nat.choose n k

/-! ### `safe_db` (`src/utilities/order_separation.py`, lines 63-69)

The python function returns an IEEE double:
`np.Inf` when the denominator is zero, else `10 * np.log10(num / den)`,
which is `-inf` when the ratio is zero, `nan` when it is negative, and the
finite value `10·log10(ratio)` otherwise.  `DbValue` records that outcome
exactly: `DbValue.val r` stands for the finite number `10·log10 r`
(with `r > 0`), so the value `0` dB is represented by `DbValue.val 1`. -/

inductive DbValue where
  | posInf : DbValue
  | negInf : DbValue
  | nan : DbValue
  | val : ℚ → DbValue
deriving DecidableEq

/-- Embedding of `safe_db(num, den)` from `src/utilities/order_separation.py`:
`if den == 0: return np.Inf` then `return 10 * np.log10(num / den)`,
with the IEEE behaviour of `log10` at `0` and at negative arguments made
explicit. -/
def safe_db (num den : ℚ) : DbValue :=
  if den = 0 then DbValue.posInf
  else if num / den = 0 then DbValue.negInf
  else if num / den < 0 then DbValue.nan
  else DbValue.val (num / den)

/-! ### `_cplx_to_real` (`pyvi/identification/methods.py`, lines 460-489)

A complex 1-D array is a `List (F × F)`; the result is a real array.
The python code first replaces an unrecognized `cast_mode` by `'real'`
(after emitting the warning `"Unknown cast_mode, mode 'real-imag' used."`),
then branches; the `'cplx'` branch is unreachable because the guard has
already replaced any mode outside the three recognized ones. -/

section CplxToReal

variable {F : Type} [Field F]

/-- Whether `_cplx_to_real` emits its `UserWarning`
(`cast_mode not in {'real', 'imag', 'real-imag'}`). -/
def cplx_to_real_warns (cast_mode : String) : Bool :=
  !(cast_mode = "real" || cast_mode = "imag" || cast_mode = "real-imag")

/-- The value returned by `_cplx_to_real`. -/
def cplx_to_real (cast_mode : String) (sig_cplx : List (F × F)) : List F :=
  let mode := if cast_mode = "real" ∨ cast_mode = "imag" ∨ cast_mode = "real-imag"
              then cast_mode else "real"
  if mode = "real" then sig_cplx.map (fun z => 2 * z.1)
  else if mode = "imag" then sig_cplx.map (fun z => 2 * z.1)
  else sig_cplx.map (fun z => z.1) ++ sig_cplx.map (fun z => z.2)

end CplxToReal

/-! ### `_SeparationMethod.gen_inputs` (`pyVI/separation/separation.py`, lines 75-91)

`np.tensordot(self.factors, signal, axes=0)` is the outer product of the
factor vector with the signal; with `axes=0` it raises no exception for any
operand sizes (empty factors or an empty signal simply give an empty
result), hence the embedding always returns `Except.ok`. -/

section GenInputs

variable {F : Type} [Field F]

/-- The collection of test signals: row `k` is `factors[k] * signal`. -/
def gen_inputs_val (factors signal : List F) : List (List F) :=
  factors.map (fun a => signal.map (fun x => a * x))

/-- Embedding of `gen_inputs` as a fallible call: `np.tensordot(·, ·, axes=0)` never
raises, so the result is always `Except.ok`. -/
def gen_inputs (factors signal : List F) : Except String (List (List F)) :=
  Except.ok (gen_inputs_val factors signal)

/-- Embedding of `PAS.gen_inputs` (lines 322-342), which overrides the base method on complex
data: `2 * np.real(np.tensordot(factors, signal, axes=0))`.  Complex scalars
are pairs `(re, im)`; the real part of `a * z` is `a.1 * z.1 - a.2 * z.2`. -/
def PAS_gen_inputs_val (factors signal : List (F × F)) : List (List F) :=
  factors.map (fun a => signal.map (fun z => 2 * (a.1 * z.1 - a.2 * z.2)))

end GenInputs

/-! ### `AS` amplitude factors (`pyVI/separation/separation.py`, lines 141-156) -/

section ASFactors

variable {F : Type} [Field F]

/-- Embedding of `AS._gen_amp_factors`:
`(-1)**(tmp_vec*negative_gain) * gain**(tmp_vec // (1+negative_gain))`
with `tmp_vec = np.arange(nb_test)` and the python bool coerced to `0`/`1`. -/
def AS_gen_amp_factors (gain : F) (negative_gain : Bool) (nb_test : ℕ) : List F :=
  let ng : ℕ := if negative_gain then 1 else 0
  (List.range nb_test).map (fun k => (-1 : F) ^ (k * ng) * gain ^ (k / (1 + ng)))

/-- Number of test signals of `AS.__init__`: `N if K is None else K`. -/
def AS_nb_test (N : ℕ) (K : Option ℕ) : ℕ := K.getD N

/-- The factor vector stored by `AS.__init__`. -/
def AS_factors (gain : F) (negative_gain : Bool) (N : ℕ) (K : Option ℕ) : List F :=
  AS_gen_amp_factors gain negative_gain (AS_nb_test N K)

end ASFactors

/-! ### Phase-based separation (`pyVI/separation/separation.py`)

A collection of `K` signals is an index function `ℕ → S` whose rows
`0..K-1` are meaningful; each signal lives in an abstract module `S` over
the scalar field `F` (a signal may itself be a time series — only the
module operations numpy performs on it matter).  The scalar `ω` stands for
the dephasing unit root `w = exp(-2iπ/nb_test)` produced by
`PS._gen_phase_factors`; `scipy.fftpack.ifft(x, n, axis=0)` is the exact
inverse DFT `m ↦ (1/n) Σ_k exp(+2iπ·k·m/n) · x[k] = (1/n) Σ_k ω^(-k·m) • x[k]`,
written below with `(ω ^ (k*m))⁻¹`. -/

section SeparationDefs

variable {F : Type} [Field F] [DecidableEq F]
variable {S : Type} [AddCommGroup S] [Module F S]

/-- Embedding of `PS._gen_phase_factors` (lines 225-231): `rho * w**np.arange(nb_test)`. -/
def PS_gen_phase_factors (rho ω : F) (nb_test : ℕ) : List F :=
  (List.range nb_test).map (fun k => rho * ω ^ k)

/-- Embedding of `PS._inverse_fft(output_coll, N)` (lines 255-261): the inverse DFT of
length `N` along the test-signal axis. -/
def inverse_fft (ω : F) (N : ℕ) (output_coll : ℕ → S) : ℕ → S :=
  fun m => (N : F)⁻¹ • ∑ k in Finset.range N, (ω ^ (k * m))⁻¹ • output_coll k

/-- Embedding of `np.roll(estimation, -1, axis=0)` on `N` rows: row `i` of the result is
row `(i+1) mod N` of the input. -/
def roll_minus_one (N : ℕ) (estimation : ℕ → S) : ℕ → S :=
  fun i => estimation ((i + 1) % N)

/-- Embedding of `PS.process_outputs` (lines 233-253): inverse DFT, circular shift by
one position, and — when `rho ≠ 1` — multiplication of row `i` by
`demixing_vec.T[i] = (1/rho)^i`, since
`np.vander([1/rho], N=N, increasing=True)` has entries
`(1/rho)^0 … (1/rho)^(N-1)`. -/
def PS_process_outputs (rho ω : F) (N : ℕ) (output_coll : ℕ → S) : ℕ → S :=
  let estimation := inverse_fft ω N output_coll
  if rho = 1 then roll_minus_one N estimation
  else fun i => (rho⁻¹ ^ i) • roll_minus_one N estimation i

/-! #### `PAS.process_outputs` (lines 344-409) -/

/-- The `PAS` phase count (line 314): `nb_phase = 2*N + 1`. -/
def PAS_nb_phase (N : ℕ) : ℕ := 2 * N + 1

/-- The `PAS` amplitude count (line 311): `nb_amp = (N + 1) // 2`. -/
def PAS_nb_amp (N : ℕ) : ℕ := (N + 1) / 2

/-- Embedding of `first_nl_order` (lines 387-388): with `tmp = np.arange(1, N+1)`,
`np.concatenate((tmp[1:2], tmp, tmp[::-1]))`.  For `N ≥ 2` this is
`[2] ++ [1..N] ++ [N..1]` of length `2N+1`; for `N = 1` the slice
`tmp[1:2]` is empty and the array has length `2 < nb_phase = 3`, so the
phase loop runs off its end. -/
def first_nl_order (N : ℕ) : List ℕ :=
  let tmp := List.range' 1 N
  (tmp.drop 1).take 1 ++ tmp ++ tmp.reverse

/-- Embedding of `np.arange(first_nl_order[phase_idx], N+1, 2)` — the admissible orders
of one phase index; line 392 computes `col_idx` as these minus one. -/
def admissible_orders (first N : ℕ) : List ℕ :=
  List.range' first ((N + 2 - first) / 2) 2

/-- Embedding of `out_per_phase[idx]` (lines 380-384): the inverse DFT of length
`nb_phase` of the block `output_coll[idx*nb_phase : (idx+1)*nb_phase]`. -/
def out_per_phase (ω : F) (nb_phase : ℕ) (output_coll : ℕ → S) (idx p : ℕ) : S :=
  inverse_fft ω nb_phase (fun k => output_coll (idx * nb_phase + k)) p

/-- Embedding of `tmp = AS._inverse_vandermonde_mat(out_per_phase[:, phase_idx],
mixing_mat[:, col_idx])` (lines 393-394).  The linear solver itself —
`np.dot` of `np.linalg.inv` (square case) or `np.linalg.pinv` of the
Vandermonde submatrix `mixing_mat[:, col_idx]` built from `amp_vec` with
the right-hand-side phase column — is numpy plumbing, abstracted as the
parameter `inv_vander` from `col_idx` and the column (rows `0..nb_amp-1`
meaningful) to the list of solution rows.  numpy guarantees the solution
has exactly `col_idx.length` rows; theorems state that contract as an
explicit hypothesis where they rely on it. -/
def phase_tmp (inv_vander : List ℕ → (ℕ → S) → List S) (ω : F) (N : ℕ)
    (output_coll : ℕ → S) (p first : ℕ) : List S :=
  inv_vander ((admissible_orders first N).map (fun n => n - 1))
    (fun idx => out_per_phase ω (PAS_nb_phase N) output_coll idx p)

/-- Embedding of `q = ((n - phase_idx) % self.nb_phase) // 2` (line 398), with python's
`%` on a possibly negative integer (result in `[0, nb_phase)`). -/
def term_q (N n p : ℕ) : ℕ :=
  ((((n : ℤ) - (p : ℤ)) % ((PAS_nb_phase N : ℤ))).toNat) / 2

/-- The contributions of one phase index: the triples
`(n, q, tmp[ind])` for `ind < tmp.shape[0]`, with
`n = first_nl_order[phase_idx] + 2*ind` and `q` as on line 398.  Both the
`raw_mode=True` loop (lines 396-399) and the `raw_mode=False` loop
(lines 401-403) traverse exactly these contributions. -/
def phase_contribs (inv_vander : List ℕ → (ℕ → S) → List S) (ω : F) (N : ℕ)
    (output_coll : ℕ → S) (p : ℕ) : List (ℕ × ℕ × S) :=
  let first := (first_nl_order N).getD p 0
  let tmp := phase_tmp inv_vander ω N output_coll p first
  (List.range tmp.length).map
    (fun ind => (first + 2 * ind, term_q N (first + 2 * ind) p, tmp.getD ind 0))

end SeparationDefs

/-- One dict insertion of the `raw_mode=True` loop (line 399):
`combinatorial_terms[(n, q)] = tmp[ind] / binomial(n, q)`, with python-dict
overwrite semantics. -/
def raw_step (F : Type) [Field F] {S : Type} [AddCommGroup S] [Module F S]
    (terms : ℕ × ℕ → Option S) (c : ℕ × ℕ × S) : ℕ × ℕ → Option S :=
  fun key =>
    if key = (c.1, c.2.1) then some ((binomial c.1 c.2.1 : F)⁻¹ • c.2.2)
    else terms key

/-- One accumulation of the `raw_mode=False` loop (line 403):
`output_by_order[n-1] += tmp[ind]`. -/
def order_step {S : Type} [AddCommGroup S]
    (output_by_order : ℕ → S) (c : ℕ × ℕ × S) : ℕ → S :=
  fun m => if m = c.1 - 1 then output_by_order m + c.2.2 else output_by_order m

section SeparationDefs2

variable {F : Type} [Field F] [DecidableEq F]
variable {S : Type} [AddCommGroup S] [Module F S]

/-- Embedding of `PAS.process_outputs(output_coll, raw_mode=True)`: raises an
`IndexError` when `first_nl_order` is shorter than `nb_phase` (the phase
loop indexes past its end — this happens for `N < 2`); otherwise builds
the `combinatorial_terms` dict by folding every phase's contributions. -/
def PAS_process_outputs_raw (inv_vander : List ℕ → (ℕ → S) → List S) (ω : F)
    (N : ℕ) (output_coll : ℕ → S) : Except String (ℕ × ℕ → Option S) :=
  if PAS_nb_phase N ≤ (first_nl_order N).length then
    Except.ok ((List.range (PAS_nb_phase N)).foldl
      (fun terms p =>
        (phase_contribs inv_vander ω N output_coll p).foldl (raw_step F) terms)
      (fun _ => none))
  else Except.error "IndexError: index out of bounds in first_nl_order"

/-- Embedding of `PAS.process_outputs(output_coll, raw_mode=False)`: same loop,
accumulating `output_by_order[n-1] += tmp[ind]` into a zero-initialized
order array.  The final `np.real_if_close` only strips an exactly-zero
imaginary part in exact arithmetic, leaving the value unchanged, and is
modelled as the identity. -/
def PAS_process_outputs_by_order (inv_vander : List ℕ → (ℕ → S) → List S)
    (ω : F) (N : ℕ) (output_coll : ℕ → S) : Except String (ℕ → S) :=
  if PAS_nb_phase N ≤ (first_nl_order N).length then
    Except.ok ((List.range (PAS_nb_phase N)).foldl
      (fun orders p =>
        (phase_contribs inv_vander ω N output_coll p).foldl order_step orders)
      (fun _ => 0))
  else Except.error "IndexError: index out of bounds in first_nl_order"

end SeparationDefs2

/-- Extract the payload of a successful `Except`, with a default. -/
def except_getD {ε α : Type} (e : Except ε α) (d : α) : α :=
  match e with
  | Except.ok a => a
  | Except.error _ => d

/-- Fixture output collection used by concrete evaluations. -/
def output_demo : ℕ → ℚ := fun k => (k : ℚ) + 1

/-- Fixture output collection for the `PS` evaluation: the outputs of the
two test signals `2·signal` and `-2·signal` of a system whose orders 1 and
2 both respond with the constant `1` — `y_k = (2·(-1)^k)·1 + (2·(-1)^k)²·1`. -/
def ps_output_demo : ℕ → ℚ := fun k => if k = 0 then 6 else if k = 1 then 2 else 0

/-- Fixture solver standing in for `AS._inverse_vandermonde_mat` in
concrete evaluations: samples the right-hand side at the column indices
(so it satisfies the numpy row-count contract). -/
def inv_vander_demo : List ℕ → (ℕ → ℚ) → List ℚ :=
  fun cols rhs => cols.map rhs

/-! ### Kernel identification feasibility (`pyvi/identification/methods.py`)

The entry points `KLS`, `orderKLS`, `termKLS`, `phaseKLS`, `iterKLS` each
run a feasibility check before any numeric work.  The check functions are in
the provided sources; the helpers they call (`nb_coeff_in_kernel`,
`nb_coeff_in_all_kernels`, `assert_enough_data_samples`, from
`pyvi.identification.tools`) are not, and are modelled from the spec.  The
numeric stage of each entry point (basis construction, QR factorization,
triangular solve, kernel reshaping) is abstracted as a continuation
`numeric` that is evaluated only when the check passes: an `Except.error`
result therefore means the configuration error was raised with no numeric
work performed and no partial result produced. -/

/-- Kernel form: `'sym'`/`'symmetric'` or `'tri'`/`'triangular'`. -/
inductive KernelForm where
  | sym : KernelForm
  | tri : KernelForm
deriving DecidableEq

/-- Modelled from the spec: `nb_coeff_in_kernel` from
`pyvi.identification.tools` (not among the provided sources).  The spec
fixes the triangular storage of an order-`n`, memory-`M` kernel to the
non-decreasing index tuples — `C(M+n-1, n)` coefficients — and the
symmetric form has the same number of free coefficients under permutation
symmetry. -/
def nb_coeff_in_kernel (M n : ℕ) (_form : KernelForm) : ℕ :=
  Nat.choose (M + n - 1) n

/-- Modelled from the spec: `nb_coeff_in_all_kernels` from
`pyvi.identification.tools` (not among the provided sources) — the total
number of free coefficients over the kernels of orders `1..N`, matching
`KLS`'s concatenated design matrix. -/
def nb_coeff_in_all_kernels (M N : ℕ) (form : KernelForm) : ℕ :=
  ∑ n in Finset.Icc 1 N, nb_coeff_in_kernel M n form

/-- Modelled from the spec: `assert_enough_data_samples` from
`pyvi.identification.tools` (not among the provided sources) — raises a
fatal configuration error when the number of data samples is below the
required number of coefficients. -/
def assert_enough_data_samples (nb_data nb_coeff : ℕ) (name : String) :
    Except String Unit :=
  if nb_data < nb_coeff then
    Except.error (name ++ ": not enough data samples")
  else Except.ok ()

/-- Embedding of `_KLS_check_feasability` (lines 88-92): checks against
`nb_coeff_in_all_kernels(M, N, form)`. -/
def KLS_check_feasability (nb_data M N : ℕ) (form : KernelForm) :
    Except String Unit :=
  assert_enough_data_samples nb_data (nb_coeff_in_all_kernels M N form) "KLS"

/-- Embedding of `_orderKLS_check_feasability` (lines 166-170): checks against
`nb_coeff_in_kernel(M, N, form)` — the highest-order kernel only. -/
def orderKLS_check_feasability (nb_data M N : ℕ) (form : KernelForm)
    (name : String) : Except String Unit :=
  assert_enough_data_samples nb_data (nb_coeff_in_kernel M N form) name

/-- Embedding of `_termKLS_check_feasability` (lines 239-242). -/
def termKLS_check_feasability (nb_data M N : ℕ) (form : KernelForm) :
    Except String Unit :=
  orderKLS_check_feasability nb_data M N form "termKLS"

/-- The orders summed by `_phaseKLS_check_feasability`:
`range(2 - N % 2, N+1, 2)` — the orders with the same parity as `N`. -/
def phaseKLS_orders (N : ℕ) : List ℕ :=
  List.range' (2 - N % 2) ((N + N % 2) / 2) 2

/-- Embedding of `_phaseKLS_check_feasability` (lines 373-379). -/
def phaseKLS_check_feasability (nb_data M N : ℕ) (form : KernelForm) :
    Except String Unit :=
  assert_enough_data_samples nb_data
    ((phaseKLS_orders N).map (fun n => nb_coeff_in_kernel M n form)).sum
    "phaseKLS"

/-- Embedding of `_iterKLS_check_feasability` (lines 446-449): the source passes the
literal `form='sym'` to `_orderKLS_check_feasability`, discarding its own
`form` argument. -/
def iterKLS_check_feasability (nb_data M N : ℕ) (_form : KernelForm) :
    Except String Unit :=
  orderKLS_check_feasability nb_data M N KernelForm.sym "iterKLS"

/-- Embedding of `KLS` up to its feasibility gate (line 74); numeric work abstracted. -/
def KLS_entry {α : Type} (nb_data M N : ℕ) (form : KernelForm)
    (numeric : KernelForm → α) : Except String α :=
  (KLS_check_feasability nb_data M N form).map (fun _ => numeric form)

/-- Embedding of `orderKLS` up to its feasibility gate (line 148). -/
def orderKLS_entry {α : Type} (nb_data M N : ℕ) (form : KernelForm)
    (numeric : KernelForm → α) : Except String α :=
  (orderKLS_check_feasability nb_data M N form "orderKLS").map
    (fun _ => numeric form)

/-- Embedding of `termKLS` up to its feasibility gate (line 218). -/
def termKLS_entry {α : Type} (nb_data M N : ℕ) (form : KernelForm)
    (numeric : KernelForm → α) : Except String α :=
  (termKLS_check_feasability nb_data M N form).map (fun _ => numeric form)

/-- Embedding of `phaseKLS` up to its feasibility gate (line 320). -/
def phaseKLS_entry {α : Type} (nb_data M N : ℕ) (form : KernelForm)
    (numeric : KernelForm → α) : Except String α :=
  (phaseKLS_check_feasability nb_data M N form).map (fun _ => numeric form)

/-- Embedding of `iterKLS` up to its feasibility gate (line 419). -/
def iterKLS_entry {α : Type} (nb_data M N : ℕ) (form : KernelForm)
    (numeric : KernelForm → α) : Except String α :=
  (iterKLS_check_feasability nb_data M N form).map (fun _ => numeric form)

/-! ### Theorems for the claims settled so far -/

/-- C8 (counterexample): the claim states that `safe_db(0, 5)` returns `0`
(which this model writes `DbValue.val 1`, since `10·log10 1 = 0`); in fact
the zero-denominator guard does not fire (`5 ≠ 0`) and the code computes
`10·log10(0/5) = -inf`. -/
theorem safe_db_zero_num_counterexample :
    safe_db 0 5 = DbValue.negInf ∧ safe_db 0 5 ≠ DbValue.val 1 := by
  constructor
  · norm_num [safe_db]
  · intro h
    simp [safe_db] at h

/-- C8 (amended): a zero numerator with a nonzero denominator yields
`-inf` (the code only special-cases a zero denominator, which yields
`+inf`); there is no special handling of `num == 0`. -/
theorem safe_db_zero_num (num den : ℚ) (hden : den ≠ 0) (hnum : num = 0) :
    safe_db num den = DbValue.negInf ∧ safe_db num 0 = DbValue.posInf := by
  subst hnum
  refine ⟨?_, by norm_num [safe_db]⟩
  simp [safe_db, hden]

/-- Witness for `safe_db_zero_num` at `num = 0`, `den = 5`. -/
theorem safe_db_zero_num_witness :
    safe_db 0 5 = DbValue.negInf ∧ safe_db 0 0 = DbValue.posInf :=
  safe_db_zero_num 0 5 (by norm_num) rfl

/-- C7 (code bug, evaluated at the failing input): with an unrecognized
`cast_mode`, `_cplx_to_real` emits its warning (whose text says mode
`'real-imag'` will be used) but then assigns `cast_mode = 'real'`, so the
computation proceeds with the `'real'` policy, not `'real-imag'`: on the
array `[1j]` it returns `2*Re = [0]` instead of `[Re; Im] = [0, 1]`. -/
theorem cplx_to_real_unknown_mode_bug :
    cplx_to_real_warns "unknown" = true ∧
    cplx_to_real "unknown" [((0 : ℚ), 1)] = cplx_to_real "real" [((0 : ℚ), 1)] ∧
    cplx_to_real "unknown" [((0 : ℚ), 1)] ≠ cplx_to_real "real-imag" [((0 : ℚ), 1)] := by
  refine ⟨rfl, rfl, ?_⟩
  intro h
  have hlength := congrArg List.length h
  simp [cplx_to_real] at hlength

/-- C9: the `'imag'` branch of `_cplx_to_real` is identical to the `'real'`
branch — both return `2 * np.real(sig_cplx)` (lines 481-484 of
`methods.py`) — so any identification pipeline consuming the cast output
(`termKLS`, `phaseKLS`, `iterKLS`) produces identical kernels under
`cast_mode='imag'` and `cast_mode='real'`; the imaginary part is never
used. -/
theorem cplx_to_real_imag_eq_real {F : Type} [Field F] (sig_cplx : List (F × F)) :
    cplx_to_real "imag" sig_cplx = cplx_to_real "real" sig_cplx ∧
    cplx_to_real "imag" sig_cplx = sig_cplx.map (fun z => 2 * z.1) ∧
    ∀ {α : Type} (identify : List F → α),
      identify (cplx_to_real "imag" sig_cplx) =
        identify (cplx_to_real "real" sig_cplx) :=
  ⟨rfl, rfl, fun _ => rfl⟩

/-- C5: the `AS` scaling-factor vector has exactly `K` entries
(`K` defaulting to `N` when not given) and its `k`-th entry is
`(-1)^(k·negative_gain) · gain^(k // (1+negative_gain))`. -/
theorem AS_factors_spec {F : Type} [Field F] (gain : F) (negative_gain : Bool)
    (N : ℕ) (K : Option ℕ) :
    (AS_factors gain negative_gain N K).length = AS_nb_test N K ∧
    ∀ k : Fin (AS_nb_test N K),
      (AS_factors gain negative_gain N K).getD k.val 0 =
        (-1 : F) ^ (k.val * (if negative_gain then 1 else 0)) *
          gain ^ (k.val / (1 + (if negative_gain then 1 else 0))) := by
  constructor
  · simp [AS_factors, AS_gen_amp_factors]
  · intro k
    simp [AS_factors, AS_gen_amp_factors, List.getD_eq_getElem?_getD,
          List.getElem?_map, List.getElem?_range, k.isLt]

/-- C6 (counterexample): the claim states that `gen_inputs` fails (raises)
when the factors are malformed (empty); in fact `np.tensordot(·, ·, axes=0)`
raises no exception on a zero-length factor vector and the call returns
normally with an empty collection. -/
theorem gen_inputs_empty_counterexample :
    gen_inputs ([] : List ℚ) [1] = Except.ok [] ∧
    (gen_inputs ([] : List ℚ) [1]).isOk = true :=
  ⟨rfl, rfl⟩

/-- C6 (amended): `gen_inputs` never raises — empty factors or an empty
signal yield an empty (or degenerate) collection rather than an error; the
base method (inherited by `AS` and `PS`) returns exactly `K` test signals,
the `k`-th equal to `factor[k] * signal` and of the same shape as the
input; `PAS` overrides it, returning `2·Re(factor[k]·signal)` — also `K`
signals of the input's shape.  The embedding is a pure function, matching
"no side effects". -/
theorem gen_inputs_spec {F : Type} [Field F] (factors signal : List F)
    (cfactors csignal : List (F × F)) :
    gen_inputs factors signal = Except.ok (gen_inputs_val factors signal) ∧
    (gen_inputs_val factors signal).length = factors.length ∧
    (∀ k : Fin factors.length,
      (gen_inputs_val factors signal).getD k.val [] =
        signal.map (fun x => factors.getD k.val 0 * x)) ∧
    (∀ k : Fin factors.length,
      ((gen_inputs_val factors signal).getD k.val []).length = signal.length) ∧
    (PAS_gen_inputs_val cfactors csignal).length = cfactors.length ∧
    (∀ k : Fin cfactors.length,
      ((PAS_gen_inputs_val cfactors csignal).getD k.val []).length =
        csignal.length) ∧
    (∀ k : Fin cfactors.length,
      (PAS_gen_inputs_val cfactors csignal).getD k.val [] =
        csignal.map (fun z =>
          2 * ((cfactors.getD k.val 0).1 * z.1 - (cfactors.getD k.val 0).2 * z.2))) := by
  refine ⟨rfl, by simp [gen_inputs_val], ?_, ?_, by simp [PAS_gen_inputs_val], ?_, ?_⟩
  · intro k
    simp [gen_inputs_val, List.getD_eq_getElem?_getD, List.getElem?_map,
          k.isLt, List.getElem?_eq_getElem]
  · intro k
    simp [gen_inputs_val, List.getD_eq_getElem?_getD, List.getElem?_map,
          k.isLt, List.getElem?_eq_getElem]
  · intro k
    simp [PAS_gen_inputs_val, List.getD_eq_getElem?_getD, List.getElem?_map,
          k.isLt, List.getElem?_eq_getElem]
  · intro k
    simp [PAS_gen_inputs_val, List.getD_eq_getElem?_getD, List.getElem?_map,
          k.isLt, List.getElem?_eq_getElem]

/-- C1 (counterexample): the claim asserts every entry point raises when
`nb_data < nb_coeff_in_all_kernels(M, N, form)`; but with `M = 2`, `N = 2`,
`form = tri`, `nb_data = 4` we have `4 < nb_coeff_in_all_kernels = 5` while
`orderKLS` checks only `nb_coeff_in_kernel(2, 2, tri) = 3 ≤ 4` and proceeds
to its numeric work, returning a result instead of raising. -/
theorem feasability_all_kernels_counterexample :
    4 < nb_coeff_in_all_kernels 2 2 KernelForm.tri ∧
    orderKLS_entry 4 2 2 KernelForm.tri (fun _ => (0 : ℕ)) = Except.ok 0 := by
  constructor
  · decide
  · rfl

/-- C1 (amended): each entry point raises its configuration error before
any numeric work whenever `nb_data` is below its own variant-specific
coefficient count — `nb_coeff_in_all_kernels(M,N,form)` for `KLS`,
`nb_coeff_in_kernel(M,N,form)` (the highest-order kernel only) for
`orderKLS` and `termKLS`, the sum over the orders of the same parity as `N`
for `phaseKLS`, and `nb_coeff_in_kernel(M,N,'sym')` for `iterKLS`.  In each
case the result is the bare error, for every possible numeric continuation:
no basis construction, QR or solve output is produced. -/
theorem KLS_feasability_spec {α : Type} (nb_data M N : ℕ) (form : KernelForm)
    (numeric : KernelForm → α) :
    (nb_data < nb_coeff_in_all_kernels M N form →
      KLS_entry nb_data M N form numeric =
        Except.error "KLS: not enough data samples") ∧
    (nb_data < nb_coeff_in_kernel M N form →
      orderKLS_entry nb_data M N form numeric =
          Except.error "orderKLS: not enough data samples" ∧
        termKLS_entry nb_data M N form numeric =
          Except.error "termKLS: not enough data samples") ∧
    (nb_data < ((phaseKLS_orders N).map (fun n => nb_coeff_in_kernel M n form)).sum →
      phaseKLS_entry nb_data M N form numeric =
        Except.error "phaseKLS: not enough data samples") ∧
    (nb_data < nb_coeff_in_kernel M N KernelForm.sym →
      iterKLS_entry nb_data M N form numeric =
        Except.error "iterKLS: not enough data samples") := by
  refine ⟨fun h => ?_, fun h => ⟨?_, ?_⟩, fun h => ?_, fun h => ?_⟩ <;>
    simp [KLS_entry, orderKLS_entry, termKLS_entry, phaseKLS_entry,
          iterKLS_entry, KLS_check_feasability, orderKLS_check_feasability,
          termKLS_check_feasability, phaseKLS_check_feasability,
          iterKLS_check_feasability, assert_enough_data_samples, h,
          Except.map]

/-- Witness for `KLS_feasability_spec`: with `nb_data = 1`, `M = 2`,
`N = 2`, `form = tri`, every variant's threshold is violated and every
entry point returns the bare error. -/
theorem KLS_feasability_spec_witness :
    KLS_entry 1 2 2 KernelForm.tri (fun _ => (0 : ℕ)) =
      Except.error "KLS: not enough data samples" ∧
    orderKLS_entry 1 2 2 KernelForm.tri (fun _ => (0 : ℕ)) =
      Except.error "orderKLS: not enough data samples" ∧
    termKLS_entry 1 2 2 KernelForm.tri (fun _ => (0 : ℕ)) =
      Except.error "termKLS: not enough data samples" ∧
    phaseKLS_entry 1 2 2 KernelForm.tri (fun _ => (0 : ℕ)) =
      Except.error "phaseKLS: not enough data samples" ∧
    iterKLS_entry 1 2 2 KernelForm.tri (fun _ => (0 : ℕ)) =
      Except.error "iterKLS: not enough data samples" :=
  ⟨(KLS_feasability_spec 1 2 2 KernelForm.tri (fun _ => (0 : ℕ))).1 (by decide),
   ((KLS_feasability_spec 1 2 2 KernelForm.tri (fun _ => (0 : ℕ))).2.1 (by decide)).1,
   ((KLS_feasability_spec 1 2 2 KernelForm.tri (fun _ => (0 : ℕ))).2.1 (by decide)).2,
   (KLS_feasability_spec 1 2 2 KernelForm.tri (fun _ => (0 : ℕ))).2.2.1 (by decide),
   (KLS_feasability_spec 1 2 2 KernelForm.tri (fun _ => (0 : ℕ))).2.2.2 (by decide)⟩

/-- C10: `iterKLS`'s feasibility check discards the requested kernel form —
the source passes the literal `'sym'` — so it compares `nb_data` with
`nb_coeff_in_kernel(M, N, 'sym')` and `iterKLS` raises the configuration
error (or not) identically for the symmetric and the triangular form. -/
theorem iterKLS_check_form_independent {α : Type} (nb_data M N : ℕ)
    (form1 form2 : KernelForm) (numeric : KernelForm → α) :
    iterKLS_check_feasability nb_data M N form1 =
      iterKLS_check_feasability nb_data M N form2 ∧
    iterKLS_check_feasability nb_data M N form1 =
      assert_enough_data_samples nb_data
        (nb_coeff_in_kernel M N KernelForm.sym) "iterKLS" ∧
    (iterKLS_entry nb_data M N form1 numeric).isOk =
      (iterKLS_entry nb_data M N form2 numeric).isOk ∧
    ((iterKLS_entry nb_data M N form1 numeric).isOk = false ↔
      nb_data < nb_coeff_in_kernel M N KernelForm.sym) := by
  refine ⟨rfl, rfl, ?_, ?_⟩ <;>
    simp only [iterKLS_entry, iterKLS_check_feasability,
               orderKLS_check_feasability, assert_enough_data_samples] <;>
    split <;>
    simp_all [Except.map, Except.isOk, Except.toBool]

/-- C3 (code bug, evaluated at a failing input): with `N = 2`, `rho = 2`
(so `ω = exp(-2iπ/2) = -1`) and the output collection of a system whose
orders 1 and 2 both respond with the constant signal `1`
(`y₀ = 2·1 + 2²·1 = 6`, `y₁ = (-2)·1 + (-2)²·1 = 2`),
`PS.process_outputs` multiplies the shifted inverse-DFT row `i` by
`(1/rho)^i` — i.e. order `n = i+1` by `(1/rho)^(n-1)` — and returns
`rho·order_n = 2` for both orders, whereas the claim's rescaling of order
`n` by `(1/rho)^n` recovers the true unit orders. -/
theorem PS_process_outputs_rho_bug :
    ps_output_demo 0 = 2 * 1 + 2 ^ 2 * 1 ∧
    ps_output_demo 1 = 2 * (-1) * 1 + (2 * (-1)) ^ 2 * 1 ∧
    PS_process_outputs (2 : ℚ) (-1) 2 ps_output_demo 0 = 2 ∧
    PS_process_outputs (2 : ℚ) (-1) 2 ps_output_demo 1 = 2 ∧
    (2 : ℚ)⁻¹ ^ (0 + 1) • roll_minus_one 2 (inverse_fft (-1 : ℚ) 2 ps_output_demo) 0 = 1 ∧
    (2 : ℚ)⁻¹ ^ (1 + 1) • roll_minus_one 2 (inverse_fft (-1 : ℚ) 2 ps_output_demo) 1 = 1 ∧
    PS_process_outputs (2 : ℚ) (-1) 2 ps_output_demo 0 ≠
      (2 : ℚ)⁻¹ ^ (0 + 1) • roll_minus_one 2 (inverse_fft (-1 : ℚ) 2 ps_output_demo) 0 := by
  refine ⟨by norm_num [ps_output_demo], by norm_num [ps_output_demo], ?_, ?_, ?_, ?_, ?_⟩ <;>
    · simp only [PS_process_outputs, inverse_fft, roll_minus_one, ps_output_demo,
                 Finset.sum_range_succ, Finset.sum_range_zero, smul_eq_mul]
      norm_num

/-! ### Helper lemmas for the `PAS.process_outputs` claims -/

section PASLemmas

variable {F : Type} [Field F] [DecidableEq F]
variable {S : Type} [AddCommGroup S] [Module F S]

lemma first_nl_order_length (N : ℕ) :
    (first_nl_order N).length = min 1 (N - 1) + (N + N) := by
  simp [first_nl_order]
  try omega

lemma PAS_gate_iff (N : ℕ) :
    PAS_nb_phase N ≤ (first_nl_order N).length ↔ 2 ≤ N := by
  rw [first_nl_order_length]
  simp only [PAS_nb_phase]
  omega

lemma first_nl_order_eq_of_two_le {N : ℕ} (hN : 2 ≤ N) :
    first_nl_order N = 2 :: (List.range' 1 N ++ (List.range' 1 N).reverse) := by
  obtain ⟨m, rfl⟩ : ∃ m, N = m + 2 := ⟨N - 2, by omega⟩
  simp only [first_nl_order]
  rw [List.range'_succ, show (1 : ℕ) + 1 = 2 from rfl, List.range'_succ]
  simp

lemma first_nl_order_getD {N p : ℕ} (hN : 2 ≤ N) (hp : p < 2 * N + 1) :
    (first_nl_order N).getD p 0 =
      if p = 0 then 2 else if p ≤ N then p else 2 * N + 1 - p := by
  rw [first_nl_order_eq_of_two_le hN]
  match p with
  | 0 => rfl
  | p' + 1 =>
    simp only [List.getD_cons_succ]
    rw [if_neg (by omega)]
    by_cases h1 : p' < N
    · rw [if_pos (by omega)]
      rw [List.getD_append _ _ _ _ (by simpa using h1),
          List.getD_eq_getElem _ _ (by simpa using h1)]
      simp [List.getElem_range'_1]
      omega
    · rw [if_neg (by omega)]
      have hlen : (List.range' 1 N).length ≤ p' := by simpa using h1
      rw [List.getD_append_right _ _ _ _ hlen]
      have h2 : p' - (List.range' 1 N).length < (List.range' 1 N).reverse.length := by
        simp
        omega
      rw [List.getD_eq_getElem _ _ h2, List.getElem_reverse]
      simp only [List.getElem_range'_1, List.length_range', List.length_reverse]
      omega

lemma first_nl_order_getD_pos {N p : ℕ} (hN : 2 ≤ N) (hp : p < 2 * N + 1) :
    1 ≤ (first_nl_order N).getD p 0 := by
  rw [first_nl_order_getD hN hp]
  split <;> [omega; (split <;> omega)]

lemma admissible_orders_length (first N : ℕ) :
    (admissible_orders first N).length = (N + 2 - first) / 2 := by
  simp [admissible_orders]

lemma phase_tmp_length (inv_vander : List ℕ → (ℕ → S) → List S) (ω : F)
    (N : ℕ) (output_coll : ℕ → S) (p first : ℕ)
    (hlen : ∀ cols rhs, (inv_vander cols rhs).length = cols.length) :
    (phase_tmp inv_vander ω N output_coll p first).length = (N + 2 - first) / 2 := by
  simp [phase_tmp, hlen, admissible_orders_length]

lemma order_le_of_lt_admissible {first N ind : ℕ} (h : ind < (N + 2 - first) / 2) :
    first + 2 * ind ≤ N := by
  omega

/-- Value of python's nonnegative `%` on the admissible range of arguments:
no wrap when `p ≤ n`, one wrap of `nb_phase` when `n < p`. -/
lemma residue_val {N n p : ℕ} (hn : n ≤ N) (hp : p < PAS_nb_phase N) :
    ((n : ℤ) - p) % ((PAS_nb_phase N : ℤ)) =
      if p ≤ n then (n : ℤ) - p else (n : ℤ) - p + (PAS_nb_phase N : ℤ) := by
  simp only [PAS_nb_phase] at hp ⊢
  split
  · refine Int.emod_eq_of_lt ?_ ?_ <;> push_cast <;> omega
  · have hshift : ((n : ℤ) - p) % ((2 * N + 1 : ℕ) : ℤ) =
        ((n : ℤ) - p + ((2 * N + 1 : ℕ) : ℤ)) % ((2 * N + 1 : ℕ) : ℤ) := by
      conv_lhs =>
        rw [show (n : ℤ) - p =
          ((n : ℤ) - p + ((2 * N + 1 : ℕ) : ℤ)) + ((2 * N + 1 : ℕ) : ℤ) * (-1) by ring]
      rw [Int.add_mul_emod_self_left]
    rw [hshift]
    refine Int.emod_eq_of_lt ?_ ?_ <;> push_cast <;> omega

/-- For an order `n` actually produced at phase index `p`
(`n = first_nl_order[p] + 2·ind`, `n ≤ N`), the residue
`(n - p) % nb_phase` is even and equals `2·q` for the stored
`q = ((n - p) % nb_phase) // 2`, and `q ≤ n`. -/
lemma term_q_facts {N n p ind : ℕ} (hN : 2 ≤ N) (hp : p < 2 * N + 1) (hn : n ≤ N)
    (hind : n = (first_nl_order N).getD p 0 + 2 * ind) :
    ((n : ℤ) - p) % ((PAS_nb_phase N : ℤ)) = 2 * (term_q N n p : ℤ) ∧
    term_q N n p ≤ n := by
  have hfd := first_nl_order_getD (N := N) (p := p) hN hp
  have hres := residue_val (N := N) (n := n) (p := p) hn (by simpa [PAS_nb_phase] using hp)
  have hq : term_q N n p
      = ((((n : ℤ) - p) % ((PAS_nb_phase N : ℤ))).toNat) / 2 := rfl
  by_cases hpn : p ≤ n
  · rw [if_pos hpn] at hres
    by_cases hp0 : p = 0
    · rw [if_pos hp0] at hfd
      subst hp0
      rw [hq, hres]
      constructor
      · push_cast
        omega
      · omega
    · rw [if_neg hp0, if_pos (by omega)] at hfd
      rw [hq, hres]
      constructor
      · push_cast
        omega
      · omega
  · have hp0 : p ≠ 0 := by omega
    have hpN : N < p := by
      by_contra hcon
      push_neg at hcon
      rw [if_neg hp0, if_pos hcon] at hfd
      omega
    rw [if_neg hp0, if_neg (by omega)] at hfd
    rw [if_neg hpn] at hres
    rw [hq, hres]
    simp only [PAS_nb_phase] at *
    constructor
    · push_cast
      omega
    · push_cast at hres ⊢
      omega

/-- For a fixed order `n`, the stored conjugate count
`q = ((n - p) % nb_phase) // 2` determines the phase index: two different
phase indices that both produce `n` store it under different values of
`q`. -/
lemma term_q_inj {N n p p' ind ind' : ℕ} (hN : 2 ≤ N)
    (hp : p < 2 * N + 1) (hp' : p' < 2 * N + 1) (hn : n ≤ N)
    (hi : n = (first_nl_order N).getD p 0 + 2 * ind)
    (hi' : n = (first_nl_order N).getD p' 0 + 2 * ind')
    (hq : term_q N n p = term_q N n p') : p = p' := by
  have h1 := (term_q_facts hN hp hn hi).1
  have h2 := (term_q_facts hN hp' hn hi').1
  rw [residue_val hn (by simpa [PAS_nb_phase] using hp)] at h1
  rw [residue_val hn (by simpa [PAS_nb_phase] using hp')] at h2
  rw [hq] at h1
  simp only [PAS_nb_phase] at h1 h2
  by_cases c1 : p ≤ n <;> by_cases c2 : p' ≤ n <;>
    [rw [if_pos c1] at h1; rw [if_pos c1] at h1; rw [if_neg c1] at h1;
     rw [if_neg c1] at h1] <;>
    [rw [if_pos c2] at h2; rw [if_neg c2] at h2; rw [if_pos c2] at h2;
     rw [if_neg c2] at h2] <;>
    (push_cast at h1 h2; omega)

lemma mem_phase_contribs {inv_vander : List ℕ → (ℕ → S) → List S} {ω : F}
    {N p : ℕ} {output_coll : ℕ → S} {c : ℕ × ℕ × S} :
    c ∈ phase_contribs inv_vander ω N output_coll p ↔
      ∃ ind, ind < (phase_tmp inv_vander ω N output_coll p
          ((first_nl_order N).getD p 0)).length ∧
        c = ((first_nl_order N).getD p 0 + 2 * ind,
             term_q N ((first_nl_order N).getD p 0 + 2 * ind) p,
             (phase_tmp inv_vander ω N output_coll p
               ((first_nl_order N).getD p 0)).getD ind 0) := by
  simp only [phase_contribs, List.mem_map, List.mem_range]
  constructor
  · rintro ⟨ind, hind, rfl⟩
    exact ⟨ind, hind, rfl⟩
  · rintro ⟨ind, hind, rfl⟩
    exact ⟨ind, hind, rfl⟩

lemma foldl_raw_step_not_mem (L : List (ℕ × ℕ × S)) (terms : ℕ × ℕ → Option S)
    (key : ℕ × ℕ) (h : key ∉ L.map (fun c => (c.1, c.2.1))) :
    (L.foldl (raw_step F) terms) key = terms key := by
  induction L generalizing terms with
  | nil => rfl
  | cons c L ih =>
    simp only [List.map_cons, List.mem_cons, not_or] at h
    rw [List.foldl_cons, ih _ (by simpa using h.2)]
    simp [raw_step, h.1]

lemma foldl_raw_step_mem (L : List (ℕ × ℕ × S)) :
    ∀ (terms : ℕ × ℕ → Option S) {c : ℕ × ℕ × S}, c ∈ L →
    (L.map (fun c => (c.1, c.2.1))).Nodup →
    (L.foldl (raw_step F) terms) (c.1, c.2.1) =
      some ((binomial c.1 c.2.1 : F)⁻¹ • c.2.2) := by
  induction L with
  | nil =>
    intro _ _ hc _
    cases hc
  | cons c0 L ih =>
    intro terms c hc hnd
    rw [List.map_cons, List.nodup_cons] at hnd
    rw [List.foldl_cons]
    rcases List.mem_cons.mp hc with rfl | hmem
    · rw [foldl_raw_step_not_mem _ _ _ hnd.1]
      simp [raw_step]
    · exact ih _ hmem hnd.2

/-- One step of the two folds preserves the reconstruction relationship:
inserting `tmp[ind] / C(n,q)` at a fresh key `(n, q)` with `q ≤ n` grows
the binomial-weighted sum over `q` by exactly the amount the order
accumulator gains at bin `n - 1`. -/
lemma raw_order_step_invariant (c : ℕ × ℕ × S) (terms : ℕ × ℕ → Option S)
    (orders : ℕ → S) (n : ℕ) (hn1 : 1 ≤ n)
    (hfresh : terms (c.1, c.2.1) = none)
    (hq : c.2.1 ≤ c.1) (hc1 : 1 ≤ c.1)
    (hC : (binomial c.1 c.2.1 : F) ≠ 0)
    (hinv : (∑ q in Finset.range (n + 1),
        (binomial n q : F) • ((terms (n, q)).getD 0)) = orders (n - 1)) :
    (∑ q in Finset.range (n + 1),
        (binomial n q : F) • (((raw_step F terms c) (n, q)).getD 0))
      = (order_step orders c) (n - 1) := by
  obtain ⟨nc, qc, v⟩ := c
  replace hfresh : terms (nc, qc) = none := hfresh
  replace hq : qc ≤ nc := hq
  replace hc1 : 1 ≤ nc := hc1
  replace hC : (binomial nc qc : F) ≠ 0 := hC
  by_cases hcn : nc = n
  · subst hcn
    have hmem : qc ∈ Finset.range (nc + 1) := Finset.mem_range.mpr (by omega)
    have hstep1 : ∀ q ∈ (Finset.range (nc + 1)).erase qc,
        (binomial nc q : F) • (((raw_step F terms (nc, qc, v)) (nc, q)).getD 0)
          = (binomial nc q : F) • ((terms (nc, q)).getD 0) := by
      intro q hqmem
      have hne : ((nc, q) : ℕ × ℕ) ≠ (nc, qc) :=
        fun h => (Finset.mem_erase.mp hqmem).1 (congrArg Prod.snd h)
      simp [raw_step, hne]
    have hat : (binomial nc qc : F) • (((raw_step F terms (nc, qc, v)) (nc, qc)).getD 0)
        = v := by
      have hval : (raw_step F terms (nc, qc, v)) (nc, qc)
          = some ((binomial nc qc : F)⁻¹ • v) := by
        simp [raw_step]
      rw [hval, Option.getD_some, smul_smul, mul_inv_cancel₀ hC, one_smul]
    have hat0 : (binomial nc qc : F) • ((terms (nc, qc)).getD 0) = 0 := by
      rw [hfresh]
      simp
    calc
      ∑ q in Finset.range (nc + 1),
          (binomial nc q : F) • (((raw_step F terms (nc, qc, v)) (nc, q)).getD 0)
        = (∑ q in (Finset.range (nc + 1)).erase qc,
            (binomial nc q : F) • (((raw_step F terms (nc, qc, v)) (nc, q)).getD 0))
          + (binomial nc qc : F) • (((raw_step F terms (nc, qc, v)) (nc, qc)).getD 0) :=
        (Finset.sum_erase_add _ _ hmem).symm
      _ = (∑ q in (Finset.range (nc + 1)).erase qc,
            (binomial nc q : F) • ((terms (nc, q)).getD 0)) + v := by
        rw [Finset.sum_congr rfl hstep1, hat]
      _ = ((∑ q in (Finset.range (nc + 1)).erase qc,
            (binomial nc q : F) • ((terms (nc, q)).getD 0))
          + (binomial nc qc : F) • ((terms (nc, qc)).getD 0)) + v := by
        rw [hat0, add_zero]
      _ = (∑ q in Finset.range (nc + 1),
            (binomial nc q : F) • ((terms (nc, q)).getD 0)) + v := by
        rw [Finset.sum_erase_add _ _ hmem]
      _ = orders (nc - 1) + v := by rw [hinv]
      _ = (order_step orders (nc, qc, v)) (nc - 1) := by
        show orders (nc - 1) + v
          = if nc - 1 = nc - 1 then orders (nc - 1) + v else orders (nc - 1)
        rw [if_pos rfl]
  · have hstep : ∀ q, ((raw_step F terms (nc, qc, v)) (n, q)) = terms (n, q) := by
      intro q
      have hne : ((n, q) : ℕ × ℕ) ≠ (nc, qc) :=
        fun h => hcn (congrArg Prod.fst h).symm
      simp [raw_step, hne]
    rw [Finset.sum_congr rfl (fun q _ => by rw [hstep q]), hinv]
    show orders (n - 1)
      = if n - 1 = nc - 1 then orders (n - 1) + v else orders (n - 1)
    rw [if_neg (by omega)]

/-- The two loops of `PAS.process_outputs` stay reconstruction-consistent
over any list of contributions with fresh, distinct keys. -/
lemma foldl_raw_order_step (L : List (ℕ × ℕ × S)) (n : ℕ) (hn1 : 1 ≤ n) :
    ∀ (terms : ℕ × ℕ → Option S) (orders : ℕ → S),
    (∀ c ∈ L, terms (c.1, c.2.1) = none) →
    ((L.map fun c => (c.1, c.2.1)).Nodup) →
    (∀ c ∈ L, c.2.1 ≤ c.1) →
    (∀ c ∈ L, 1 ≤ c.1) →
    (∀ c ∈ L, (binomial c.1 c.2.1 : F) ≠ 0) →
    (∑ q in Finset.range (n + 1),
        (binomial n q : F) • ((terms (n, q)).getD 0)) = orders (n - 1) →
    (∑ q in Finset.range (n + 1),
        (binomial n q : F) • (((L.foldl (raw_step F) terms) (n, q)).getD 0))
      = (L.foldl order_step orders) (n - 1) := by
  induction L with
  | nil =>
    intro terms orders _ _ _ _ _ hinv
    simpa using hinv
  | cons c L ih =>
    intro terms orders hfresh hnd hq hc1 hC hinv
    rw [List.map_cons, List.nodup_cons] at hnd
    rw [List.foldl_cons, List.foldl_cons]
    refine ih _ _ ?_ hnd.2 ?_ ?_ ?_ ?_
    · intro c' hc'
      have hne : (c'.1, c'.2.1) ≠ (c.1, c.2.1) := by
        intro he
        exact hnd.1 (he ▸ List.mem_map_of_mem _ hc')
      simp [raw_step, hne, hfresh c' (List.mem_cons_of_mem _ hc')]
    · exact fun c' hc' => hq c' (List.mem_cons_of_mem _ hc')
    · exact fun c' hc' => hc1 c' (List.mem_cons_of_mem _ hc')
    · exact fun c' hc' => hC c' (List.mem_cons_of_mem _ hc')
    · exact raw_order_step_invariant c terms orders n hn1
        (hfresh c (List.mem_cons_self _ _)) (hq c (List.mem_cons_self _ _))
        (hc1 c (List.mem_cons_self _ _)) (hC c (List.mem_cons_self _ _)) hinv

lemma foldl_flatMap_eq {α β γ : Type} (l : List α) (g : α → List β)
    (f : γ → β → γ) (init : γ) :
    (l.flatMap g).foldl f init = l.foldl (fun acc x => (g x).foldl f acc) init := by
  induction l generalizing init with
  | nil => rfl
  | cons a l ih => simp [List.flatMap_cons, List.foldl_append, ih]

/-- Every contribution of phase index `p` (under the numpy row-count
contract): its order is in `1..N`, its conjugate count is the stored
`term_q` and is at most the order, and the order has the
`first_nl_order[p] + 2·ind` form. -/
lemma phase_contribs_facts {inv_vander : List ℕ → (ℕ → S) → List S} {ω : F}
    {N p : ℕ} {output_coll : ℕ → S}
    (hlen : ∀ cols rhs, (inv_vander cols rhs).length = cols.length)
    (hN : 2 ≤ N) (hp : p < 2 * N + 1)
    {c : ℕ × ℕ × S} (hc : c ∈ phase_contribs inv_vander ω N output_coll p) :
    c.1 ≤ N ∧ 1 ≤ c.1 ∧ c.2.1 = term_q N c.1 p ∧ c.2.1 ≤ c.1 ∧
      (∃ ind : ℕ, c.1 = (first_nl_order N).getD p 0 + 2 * ind) := by
  obtain ⟨ind, hind, rfl⟩ := mem_phase_contribs.mp hc
  rw [phase_tmp_length _ _ _ _ _ _ hlen] at hind
  have hfirst1 := first_nl_order_getD_pos (N := N) (p := p) hN hp
  have hle : (first_nl_order N).getD p 0 + 2 * ind ≤ N :=
    order_le_of_lt_admissible hind
  exact ⟨hle, by omega, rfl, (term_q_facts hN hp hle rfl).2, ⟨ind, rfl⟩⟩

/-- The dict keys `(n, q)` written by the raw loop are pairwise distinct:
within a phase the orders are distinct, and across phases a shared order
is stored under distinct conjugate counts. -/
lemma contribs_keys_nodup {inv_vander : List ℕ → (ℕ → S) → List S} {ω : F}
    {N : ℕ} {output_coll : ℕ → S}
    (hlen : ∀ cols rhs, (inv_vander cols rhs).length = cols.length)
    (hN : 2 ≤ N) :
    (((List.range (PAS_nb_phase N)).flatMap
        (phase_contribs inv_vander ω N output_coll)).map
      (fun c => (c.1, c.2.1))).Nodup := by
  rw [List.map_flatMap]
  refine List.nodup_flatMap.mpr ⟨?_, ?_⟩
  · intro p hp
    simp only [phase_contribs, List.map_map]
    refine List.Nodup.map ?_ (List.nodup_range _)
    intro a b hab
    have := congrArg Prod.fst hab
    simp only [Function.comp_apply] at this
    omega
  · refine List.Pairwise.imp_of_mem ?_ (List.pairwise_lt_range _)
    intro p p' hpmem hp'mem hlt key hkey hkey'
    obtain ⟨c, hc, rfl⟩ := List.mem_map.mp hkey
    obtain ⟨c', hc', hkeq⟩ := List.mem_map.mp hkey'
    have hp : p < 2 * N + 1 := by
      simpa [PAS_nb_phase] using List.mem_range.mp hpmem
    have hp' : p' < 2 * N + 1 := by
      simpa [PAS_nb_phase] using List.mem_range.mp hp'mem
    obtain ⟨hle, h1, hqe, hqle, ind, hind⟩ := phase_contribs_facts hlen hN hp hc
    obtain ⟨hle', h1', hqe', hqle', ind', hind'⟩ :=
      phase_contribs_facts hlen hN hp' hc'
    have hfst : c'.1 = c.1 := congrArg (Prod.fst : ℕ × ℕ → ℕ) hkeq
    have hsnd : c'.2.1 = c.2.1 := congrArg (Prod.snd : ℕ × ℕ → ℕ) hkeq
    have hqq : term_q N c.1 p = term_q N c.1 p' := by
      rw [← hqe, ← hsnd, hqe', hfst]
    exact absurd (term_q_inj hN hp hp' hle hind (hfst ▸ hind') hqq) hlt.ne

end PASLemmas

/-- C2: for every `PAS` instance whose `process_outputs` returns (in both
modes), every order `n` in `1..N` satisfies
`Σ_q C(n,q) · term[(n,q)] = output_by_order[n-1]` exactly (exact
arithmetic; `np.real_if_close` does not change the value), for any
behaviour of the underlying numpy Vandermonde solver subject only to its
row-count contract.  The binomial weights are nonzero by `CharZero F`. -/
theorem PAS_raw_mode_reconstructs_orders
    {F : Type} [Field F] [DecidableEq F] [CharZero F]
    {S : Type} [AddCommGroup S] [Module F S]
    (inv_vander : List ℕ → (ℕ → S) → List S) (ω : F) (N : ℕ)
    (output_coll : ℕ → S) (terms : ℕ × ℕ → Option S) (orders : ℕ → S)
    (hlen : ∀ cols rhs, (inv_vander cols rhs).length = cols.length)
    (hraw : PAS_process_outputs_raw inv_vander ω N output_coll = Except.ok terms)
    (hord : PAS_process_outputs_by_order inv_vander ω N output_coll
      = Except.ok orders)
    (n : ℕ) (hn1 : 1 ≤ n) (hnN : n ≤ N) :
    ∑ q in Finset.range (n + 1), (binomial n q : F) • ((terms (n, q)).getD 0)
      = orders (n - 1) := by
  rw [PAS_process_outputs_raw] at hraw
  rw [PAS_process_outputs_by_order] at hord
  by_cases hgate : PAS_nb_phase N ≤ (first_nl_order N).length
  · rw [if_pos hgate] at hraw hord
    have hN : 2 ≤ N := (PAS_gate_iff N).mp hgate
    injection hraw with hraw
    injection hord with hord
    rw [← hraw, ← hord, ← foldl_flatMap_eq, ← foldl_flatMap_eq]
    refine foldl_raw_order_step _ n hn1 _ _ (fun _ _ => rfl)
      (contribs_keys_nodup hlen hN) ?_ ?_ ?_ (by simp)
    · intro c hc
      obtain ⟨p, hpmem, hcp⟩ := List.mem_flatMap.mp hc
      have hp : p < 2 * N + 1 := by
        simpa [PAS_nb_phase] using List.mem_range.mp hpmem
      exact (phase_contribs_facts hlen hN hp hcp).2.2.2.1
    · intro c hc
      obtain ⟨p, hpmem, hcp⟩ := List.mem_flatMap.mp hc
      have hp : p < 2 * N + 1 := by
        simpa [PAS_nb_phase] using List.mem_range.mp hpmem
      exact (phase_contribs_facts hlen hN hp hcp).2.1
    · intro c hc
      obtain ⟨p, hpmem, hcp⟩ := List.mem_flatMap.mp hc
      have hp : p < 2 * N + 1 := by
        simpa [PAS_nb_phase] using List.mem_range.mp hpmem
      have hqle := (phase_contribs_facts hlen hN hp hcp).2.2.2.1
      exact Nat.cast_ne_zero.mpr (Nat.choose_pos hqle).ne'
  · rw [if_neg hgate] at hraw
    cases hraw

/-- Witness for `PAS_raw_mode_reconstructs_orders` at `N = 2` over `ℚ`
(with the fixture solver and output collection): the binomial-weighted sum
of the order-2 raw terms equals the order-2 entry of the non-raw result. -/
theorem PAS_raw_mode_reconstructs_orders_witness :
    ∑ q in Finset.range 3, (binomial 2 q : ℚ) •
      (((except_getD (PAS_process_outputs_raw inv_vander_demo (1 : ℚ) 2 output_demo)
          (fun _ => none)) (2, q)).getD 0)
    = (except_getD (PAS_process_outputs_by_order inv_vander_demo (1 : ℚ) 2 output_demo)
        (fun _ => 0)) 1 := by
  have hraw : PAS_process_outputs_raw inv_vander_demo (1 : ℚ) 2 output_demo
      = Except.ok (except_getD
          (PAS_process_outputs_raw inv_vander_demo (1 : ℚ) 2 output_demo)
          (fun _ => none)) := rfl
  have hord : PAS_process_outputs_by_order inv_vander_demo (1 : ℚ) 2 output_demo
      = Except.ok (except_getD
          (PAS_process_outputs_by_order inv_vander_demo (1 : ℚ) 2 output_demo)
          (fun _ => 0)) := rfl
  exact PAS_raw_mode_reconstructs_orders inv_vander_demo 1 2 output_demo _ _
    (fun cols rhs => by simp [inv_vander_demo]) hraw hord 2 (by omega) (by omega)

/-- C4: for every `PAS` instance whose raw-mode `process_outputs` returns,
(i) every entry of the returned mapping is keyed `(n, q)` with
`n = first_nl_order[p] + 2·ind ≤ N` an admissible order of the phase
index `p` it was recovered from and `q = ((n - p) mod nb_phase) / 2` (the
residue is even, so floor division is exact division), and its value is
the recovered contribution `tmp[ind]` divided by `C(n, q)`; and
(ii) conversely every phase contribution is stored at exactly that key
with exactly that value. -/
theorem PAS_raw_term_key_structure
    {F : Type} [Field F] [DecidableEq F]
    {S : Type} [AddCommGroup S] [Module F S]
    (inv_vander : List ℕ → (ℕ → S) → List S) (ω : F) (N : ℕ)
    (output_coll : ℕ → S) (terms : ℕ × ℕ → Option S)
    (hlen : ∀ cols rhs, (inv_vander cols rhs).length = cols.length)
    (hraw : PAS_process_outputs_raw inv_vander ω N output_coll = Except.ok terms) :
    (∀ n q v, terms (n, q) = some v →
      ∃ p ind, p < PAS_nb_phase N ∧
        ind < (phase_tmp inv_vander ω N output_coll p
            ((first_nl_order N).getD p 0)).length ∧
        n = (first_nl_order N).getD p 0 + 2 * ind ∧ n ≤ N ∧
        q = term_q N n p ∧
        ((n : ℤ) - p) % ((PAS_nb_phase N : ℤ)) = 2 * (q : ℤ) ∧
        v = (binomial n q : F)⁻¹ •
          ((phase_tmp inv_vander ω N output_coll p
            ((first_nl_order N).getD p 0)).getD ind 0)) ∧
    (∀ p ind, p < PAS_nb_phase N →
      ind < (phase_tmp inv_vander ω N output_coll p
          ((first_nl_order N).getD p 0)).length →
      terms ((first_nl_order N).getD p 0 + 2 * ind,
             term_q N ((first_nl_order N).getD p 0 + 2 * ind) p)
        = some ((binomial ((first_nl_order N).getD p 0 + 2 * ind)
              (term_q N ((first_nl_order N).getD p 0 + 2 * ind) p) : F)⁻¹ •
            ((phase_tmp inv_vander ω N output_coll p
              ((first_nl_order N).getD p 0)).getD ind 0))) := by
  rw [PAS_process_outputs_raw] at hraw
  by_cases hgate : PAS_nb_phase N ≤ (first_nl_order N).length
  · rw [if_pos hgate] at hraw
    have hN : 2 ≤ N := (PAS_gate_iff N).mp hgate
    injection hraw with hraw
    rw [← hraw, ← foldl_flatMap_eq]
    constructor
    · intro n q v hv
      by_cases hkey : (n, q) ∈ (((List.range (PAS_nb_phase N)).flatMap
          (phase_contribs inv_vander ω N output_coll)).map (fun c => (c.1, c.2.1)))
      · obtain ⟨c, hcL, hkeq⟩ := List.mem_map.mp hkey
        obtain ⟨p, hpmem, hcp⟩ := List.mem_flatMap.mp hcL
        have hpn : p < 2 * N + 1 := by
          simpa [PAS_nb_phase] using List.mem_range.mp hpmem
        obtain ⟨ind, hind, hcform⟩ := mem_phase_contribs.mp hcp
        have hval : (((List.range (PAS_nb_phase N)).flatMap
              (phase_contribs inv_vander ω N output_coll)).foldl (raw_step F)
                (fun _ => none)) (c.1, c.2.1)
            = some ((binomial c.1 c.2.1 : F)⁻¹ • c.2.2) :=
          foldl_raw_step_mem _ (fun _ => none) hcL (contribs_keys_nodup hlen hN)
        rw [hkeq] at hval
        rw [hval] at hv
        have hveq : v = (binomial c.1 c.2.1 : F)⁻¹ • c.2.2 :=
          (Option.some.inj hv).symm
        have hn : n = c.1 := (congrArg (Prod.fst : ℕ × ℕ → ℕ) hkeq).symm
        have hq : q = c.2.1 := (congrArg (Prod.snd : ℕ × ℕ → ℕ) hkeq).symm
        subst hcform
        subst hn
        subst hq
        have hind' := hind
        rw [phase_tmp_length _ _ _ _ _ _ hlen] at hind'
        have hle : (first_nl_order N).getD p 0 + 2 * ind ≤ N :=
          order_le_of_lt_admissible hind'
        exact ⟨p, ind, by simpa [PAS_nb_phase] using hpn, hind, rfl, hle, rfl,
          (term_q_facts hN hpn hle rfl).1, hveq⟩
      · rw [foldl_raw_step_not_mem _ _ _ hkey] at hv
        cases hv
    · intro p ind hp hind
      have hcL : ((first_nl_order N).getD p 0 + 2 * ind,
          term_q N ((first_nl_order N).getD p 0 + 2 * ind) p,
          (phase_tmp inv_vander ω N output_coll p
            ((first_nl_order N).getD p 0)).getD ind 0)
          ∈ (List.range (PAS_nb_phase N)).flatMap
              (phase_contribs inv_vander ω N output_coll) :=
        List.mem_flatMap.mpr ⟨p, List.mem_range.mpr hp,
          mem_phase_contribs.mpr ⟨ind, hind, rfl⟩⟩
      exact foldl_raw_step_mem _ (fun _ => none) hcL (contribs_keys_nodup hlen hN)
  · rw [if_neg hgate] at hraw
    cases hraw

/-- Witness for `PAS_raw_term_key_structure` at `N = 2` over `ℚ`: the
contribution of phase index `1`, row `0` is stored at its computed key
with its computed value. -/
theorem PAS_raw_term_key_structure_witness :
    (except_getD (PAS_process_outputs_raw inv_vander_demo (1 : ℚ) 2 output_demo)
        (fun _ => none))
      ((first_nl_order 2).getD 1 0 + 2 * 0,
       term_q 2 ((first_nl_order 2).getD 1 0 + 2 * 0) 1)
    = some ((binomial ((first_nl_order 2).getD 1 0 + 2 * 0)
          (term_q 2 ((first_nl_order 2).getD 1 0 + 2 * 0) 1) : ℚ)⁻¹ •
        ((phase_tmp inv_vander_demo (1 : ℚ) 2 output_demo 1
            ((first_nl_order 2).getD 1 0)).getD 0 0)) := by
  have hraw : PAS_process_outputs_raw inv_vander_demo (1 : ℚ) 2 output_demo
      = Except.ok (except_getD
          (PAS_process_outputs_raw inv_vander_demo (1 : ℚ) 2 output_demo)
          (fun _ => none)) := rfl
  exact (PAS_raw_term_key_structure inv_vander_demo 1 2 output_demo _
      (fun cols rhs => by simp [inv_vander_demo]) hraw).2 1 0 (by decide)
    (by decide)

end Pyvi
